import Mathlib

/-
Verification of the Willora journal repository: a shallow embedding of
the two core algorithms the spec singles out — the Confidentiality Codec
(`encryptText`/`decryptText` in `mindwell-ai/src/components/JournalPage.jsx`)
and the Analytics Engine (the stats GET handler in `routes/stats.js`) —
together with proofs of the spec's testable properties over that embedding.

Conventions of the embedding:
  * JS numbers that are calendar-day values are `Int` day indices
    (days since an arbitrary epoch); a JS `Date` at local midnight of day
    `d` is just `d`, and a `Date` carrying a wall-clock time-of-day is a
    pair of a day index and a fractional part of a day (a `ℚ`).
  * Byte strings are `List Nat`; machine bytes never overflow any
    operation used here (only XOR and list surgery), so no `% 256` is
    needed.
  * Fallible JS operations are `Option`-valued; a thrown-and-caught
    exception is the `none` branch of the caller's `match`.
-/

/-! ## Data model (stats route) -/

/-- A journal entry as the stats route `routes/stats.js` sees it: the clear
metadata fields `mood` and `dateOnly`.  `dateOnly` is the result of
`new Date(j.dateOnly)`: `some d` when the stored string parses to the
(local-midnight) calendar day with index `d`, `none` when it does not parse
(a JS `Invalid Date`, every field of which is `NaN`). -/
structure JEntry where
  mood : String
  dateOnly : Option Int
deriving DecidableEq

/-- The mood lookup `moodMap[j.mood] || 3` in the stats route: the five named
labels map to 1..5; every other label — `moodMap[m]` is `undefined`, which is
falsy — falls through `|| 3` to the default 3. -/
def moodScore (m : String) : Nat :=
  if m = "Very Sad" then 1
  else if m = "Sad" then 2
  else if m = "Neutral" then 3
  else if m = "Happy" then 4
  else if m = "Very Happy" then 5
  else 3

/-- `journals.reduce((sum, j) => sum + (moodMap[j.mood] || 3), 0)`. -/
def totalMood (journals : List JEntry) : Nat :=
  journals.foldl (fun sum j => sum + moodScore j.mood) 0

/-- Models `Number.prototype.toFixed(1)` on the nonnegative rationals produced
by the mood average: round to the nearest tenth, halves rounded up (for
nonnegative arguments JS rounds halves away from zero, which is the same
thing), as an exact rational.  JS renders the result as a decimal string;
the embedding keeps the numeric value it denotes. -/
def toFixed1 (q : ℚ) : ℚ := (⌊q * 10 + 1 / 2⌋ : ℤ) / 10

/-- The `averageMood` computation of the stats route: `0` when there are no
entries, otherwise `(totalMood / journals.length).toFixed(1)`. -/
def averageMood (journals : List JEntry) : ℚ :=
  if 0 < journals.length then toFixed1 ((totalMood journals : ℚ) / journals.length)
  else 0

/-! ## Streak (stats route) -/

/-- The streak `for (let d of dates)` loop of the stats route, one constructor
per iteration over the (already sorted) date list.

  * `some d` is a parsed date at local midnight of day `d`; `none` is an
    Invalid Date.
  * `todayDay`/`todayFrac` are the day index and the time-of-day (fraction
    of a day) of the mutable `today` cursor, initially `new Date()`;
    `today.setDate(today.getDate() - 1)` moves the day back one and keeps
    the time-of-day.
  * The first branch is the `(getFullYear, getMonth, getDate)` triple
    comparison: it holds exactly when the two calendar days coincide.
  * The second branch is `d < today` on full timestamps: midnight of `d`
    precedes `(todayDay, todayFrac)` iff `d < todayDay`, or `d = todayDay`
    with a positive time-of-day; it ends the loop (`break`), returning the
    accumulator.
  * Otherwise the iteration does nothing (no `else`, the loop continues).
  * For an Invalid Date every comparison is a comparison with `NaN` and is
    false, so the entry is skipped. -/
def streakLoopJS : List (Option Int) → Int → ℚ → Nat → Nat
  | [], _, _, streak => streak
  | none :: ds, todayDay, todayFrac, streak => streakLoopJS ds todayDay todayFrac streak
  | some d :: ds, todayDay, todayFrac, streak =>
    if d = todayDay then streakLoopJS ds (todayDay - 1) todayFrac (streak + 1)
    else if d < todayDay ∨ (d = todayDay ∧ 0 < todayFrac) then streak
    else streakLoopJS ds todayDay todayFrac streak

/-- `dates.sort((a, b) => b - a)`: the day list in descending order. -/
def sortDatesDesc (days : List Int) : List Int :=
  (List.insertionSort (fun a b : Int => a ≤ b) days).reverse

/-- The full streak computation of the stats route for a user all of whose
stored `dateOnly` strings parse: guard on `journals.length > 0`, build the
date list, sort it descending, and run the loop from `today` with
accumulator `0`. -/
def computeStreak (days : List Int) (todayDay : Int) (todayFrac : ℚ) : Nat :=
  if days = [] then 0
  else streakLoopJS ((sortDatesDesc days).map some) todayDay todayFrac 0

/-! ## The stats response -/

/-- The numeric fields of the stats GET handler's JSON response (the
`name`/`email` fields merely echo the user record and are outside the
analytics engine). -/
structure StatsSummary where
  totalEntries : Nat
  averageMood : ℚ
  streak : Nat
  communityPosts : Nat
deriving DecidableEq

/-- The stats GET handler, `routes/stats.js`.  `totalEntries` is
`countDocuments` over the same user filter as the `find`, hence the length of
`journals`.  `sortedDates` is `journals.map(j => new Date(j.dateOnly))` after
`.sort((a, b) => b - a)`: when every date is valid this is the descending
order, but an Invalid Date makes the comparator return `NaN` and the
resulting order implementation-defined, so the handler is embedded over the
post-sort order (always some arrangement of the mapped dates).
`communityPosts` is the external `Post.countDocuments` collaborator value. -/
def statsResponse (journals : List JEntry) (sortedDates : List (Option Int))
    (todayDay : Int) (todayFrac : ℚ) (communityPosts : Nat) : StatsSummary where
  totalEntries := journals.length
  averageMood := averageMood journals
  streak :=
    if 0 < journals.length then streakLoopJS sortedDates todayDay todayFrac 0 else 0
  communityPosts := communityPosts

/-- The number of entries whose `dateOnly` does not parse — the diagnostic
count the spec asks to be observable.  No field of `StatsSummary` carries
it; it is defined here only to state that fact. -/
def malformedCount (journals : List JEntry) : Nat :=
  (journals.filter fun j => j.dateOnly = none).length

/-! ## dateOnly derivation (JournalPage.jsx) -/

/-- Models `new Date(createdAt).toDateString()` from `JournalPage.jsx` (used
both for `tempEntry.dateOnly` and when re-deriving `dateOnly` from
`createdAt` on fetch): with `createdAt` in minutes since the epoch (UTC) and
a viewing client whose clock runs at a fixed UTC offset of `off` minutes,
`toDateString` renders the client-local calendar date, i.e. the local day
index `⌊(createdAt + off) / 1440⌋`.  (`/` on `Int` rounds toward `-∞` for
this positive divisor.) -/
def dateOnlyOf (createdAt off : Int) : Int := (createdAt + off) / 1440

/-! ## Proof helpers for the streak -/

/-- Accumulator-free form of the streak loop on the valid days only. -/
def streakAux : List Int → Int → Nat
  | [], _ => 0
  | d :: ds, todayDay =>
    if d = todayDay then streakAux ds (todayDay - 1) + 1
    else if d < todayDay then 0
    else streakAux ds todayDay

theorem streakLoopJS_eq_aux (L : List (Option Int)) :
    ∀ (todayDay : Int) (todayFrac : ℚ) (s : Nat),
      streakLoopJS L todayDay todayFrac s = streakAux (L.filterMap id) todayDay + s := by
  induction L with
  | nil => intro td tf s; simp [streakLoopJS, streakAux]
  | cons o ds ih =>
    intro td tf s
    cases o with
    | none => simpa [streakLoopJS] using ih td tf s
    | some d =>
      simp only [streakLoopJS, List.filterMap_cons, id]
      by_cases h1 : d = td
      · simp only [if_pos h1, streakAux, ih]
        omega
      · by_cases h2 : d < td
        · have : (d < td ∨ (d = td ∧ 0 < tf)) := Or.inl h2
          simp [if_neg h1, if_pos this, streakAux, if_pos h2]
        · have : ¬(d < td ∨ (d = td ∧ 0 < tf)) := by
            rintro (h | ⟨h, _⟩) <;> exact absurd h (by assumption)
          simp [if_neg h1, if_neg this, streakAux, if_neg h2, ih]

theorem computeStreak_eq_aux (days : List Int) (todayDay : Int) (todayFrac : ℚ) :
    computeStreak days todayDay todayFrac = streakAux (sortDatesDesc days) todayDay := by
  unfold computeStreak
  by_cases h : days = []
  · subst h; simp [sortDatesDesc, streakAux]
  · rw [if_neg h, streakLoopJS_eq_aux]
    have : (List.map some (sortDatesDesc days)).filterMap id = sortDatesDesc days := by
      simp [List.filterMap_map]
    rw [this, Nat.add_zero]

theorem mem_sortDatesDesc {a : Int} {days : List Int} :
    a ∈ sortDatesDesc days ↔ a ∈ days := by
  simp [sortDatesDesc]

theorem sorted_sortDatesDesc (days : List Int) :
    (sortDatesDesc days).Sorted (fun a b : Int => b ≤ a) := by
  have h := List.sorted_insertionSort (fun a b : Int => a ≤ b) days
  unfold sortDatesDesc
  rw [List.Sorted, List.pairwise_reverse]
  exact h

/-- Characterisation of the loop on a descending list: the first `streakAux`
days walking back from `today` are all present, and the day right after the
run is absent. -/
theorem streakAux_char (L : List Int) :
    ∀ todayDay : Int, L.Sorted (fun a b : Int => b ≤ a) →
      ((∀ i : Nat, i < streakAux L todayDay → (todayDay - i) ∈ L) ∧
        (todayDay - (streakAux L todayDay : Int)) ∉ L) := by
  induction L with
  | nil => intro td _; simp [streakAux]
  | cons d ds ih =>
    intro td hs
    have hhead : ∀ b ∈ ds, b ≤ d := List.rel_of_sorted_cons hs
    have htail : ds.Sorted (fun a b : Int => b ≤ a) := hs.of_cons
    by_cases h1 : d = td
    · subst h1
      obtain ⟨ih1, ih2⟩ := ih (d - 1) htail
      have heq : streakAux (d :: ds) d = streakAux ds (d - 1) + 1 := by
        simp [streakAux]
      rw [heq]
      constructor
      · intro i hi
        match i with
        | 0 => simp
        | (j : Nat) + 1 =>
          have hj : j < streakAux ds (d - 1) := by omega
          have hmem := ih1 j hj
          have harith : d - ((j : Nat) + 1 : Nat) = d - 1 - (j : Nat) := by
            push_cast; ring
          rw [harith]
          exact List.mem_cons_of_mem _ hmem
      · intro hmem
        rcases List.mem_cons.mp hmem with h | h
        · omega
        · have harith : d - ((streakAux ds (d - 1) + 1 : Nat) : Int)
              = d - 1 - (streakAux ds (d - 1) : Nat) := by
            push_cast; ring
          rw [harith] at h
          exact ih2 h
    · by_cases h2 : d < td
      · have heq : streakAux (d :: ds) td = 0 := by
          simp [streakAux, h1, h2]
        rw [heq]
        refine ⟨by omega, ?_⟩
        intro hmem
        rcases List.mem_cons.mp hmem with h | h
        · omega
        · have := hhead _ h
          omega
      · have hgt : td < d := by omega
        have heq : streakAux (d :: ds) td = streakAux ds td := by
          simp [streakAux, h1, h2]
        rw [heq]
        obtain ⟨ih1, ih2⟩ := ih td htail
        constructor
        · intro i hi
          exact List.mem_cons_of_mem _ (ih1 i hi)
        · intro hmem
          rcases List.mem_cons.mp hmem with h | h
          · omega
          · exact ih2 h

/-- The characterisation transported to `computeStreak` over the raw day
list. -/
theorem computeStreak_char (days : List Int) (todayDay : Int) (todayFrac : ℚ) :
    (∀ i : Nat, i < computeStreak days todayDay todayFrac → (todayDay - i) ∈ days) ∧
      (todayDay - (computeStreak days todayDay todayFrac : Int)) ∉ days := by
  rw [computeStreak_eq_aux]
  have ⟨h1, h2⟩ := streakAux_char (sortDatesDesc days) todayDay (sorted_sortDatesDesc days)
  exact ⟨fun i hi => mem_sortDatesDesc.mp (h1 i hi), fun h => h2 (mem_sortDatesDesc.mpr h)⟩

/-- Any two numbers satisfying the run characterisation over the same
membership predicate agree. -/
theorem streakRun_unique {P : Int → Prop} {t : Int} {n m : Nat}
    (hn1 : ∀ i : Nat, i < n → P (t - i)) (hn2 : ¬P (t - (n : Int)))
    (hm1 : ∀ i : Nat, i < m → P (t - i)) (hm2 : ¬P (t - (m : Int))) : n = m := by
  by_contra h
  rcases Nat.lt_or_ge n m with hlt | hge
  · exact hn2 (hm1 n hlt)
  · have : m < n := by omega
    exact hm2 (hn1 m this)

/-- Streak depends only on the membership set of days and the reference day:
order, multiplicity and the time-of-day read from the wall clock are all
irrelevant. -/
theorem computeStreak_ext (S1 S2 : List Int) (td : Int) (tf1 tf2 : ℚ)
    (h : ∀ d : Int, d ∈ S1 ↔ d ∈ S2) :
    computeStreak S1 td tf1 = computeStreak S2 td tf2 := by
  obtain ⟨h11, h12⟩ := computeStreak_char S1 td tf1
  obtain ⟨h21, h22⟩ := computeStreak_char S2 td tf2
  exact streakRun_unique (P := fun x => x ∈ S2)
    (fun i hi => (h _).mp (h11 i hi)) (fun hc => h12 ((h _).mpr hc)) h21 h22

/-! ## Proof helpers for the mood average -/

/-- The spec-side mean of the mapped mood values (§4.2 of the spec, before
rounding): sum of the mapped values over the number of entries. -/
def meanMood (journals : List JEntry) : ℚ :=
  ((journals.map fun j => (moodScore j.mood : ℚ)).sum) / journals.length

theorem totalMood_eq_sum (journals : List JEntry) :
    totalMood journals = (journals.map fun j => moodScore j.mood).sum := by
  have h : ∀ (l : List JEntry) (a : Nat),
      l.foldl (fun sum j => sum + moodScore j.mood) a
        = a + (l.map fun j => moodScore j.mood).sum := by
    intro l
    induction l with
    | nil => intro a; simp
    | cons j js ih =>
      intro a
      simp only [List.foldl, List.map_cons, List.sum_cons, ih]
      omega
  simpa using h journals 0

/-- The route's `averageMood` is exactly the spec's mean, pushed through the
`toFixed(1)` rounding. -/
theorem averageMood_eq_mean (journals : List JEntry) (h : journals ≠ []) :
    averageMood journals = toFixed1 (meanMood journals) := by
  have hlen : 0 < journals.length := List.length_pos.mpr h
  unfold averageMood meanMood
  rw [if_pos hlen, totalMood_eq_sum]
  have hcast : (((journals.map fun j => moodScore j.mood).sum : Nat) : ℚ)
      = (journals.map fun j => (moodScore j.mood : ℚ)).sum := by
    rw [Nat.cast_list_sum, List.map_map]
    rfl
  rw [hcast]

theorem totalMood_const3 (journals : List JEntry)
    (h : ∀ j ∈ journals, moodScore j.mood = 3) :
    totalMood journals = 3 * journals.length := by
  rw [totalMood_eq_sum]
  induction journals with
  | nil => simp
  | cons j js ih =>
    simp only [List.map_cons, List.sum_cons, List.length_cons]
    rw [h j (List.mem_cons_self j js), ih fun x hx => h x (List.mem_cons_of_mem _ hx)]
    ring

theorem averageMood_const3 (journals : List JEntry) (hne : journals ≠ [])
    (h : ∀ j ∈ journals, moodScore j.mood = 3) : averageMood journals = 3 := by
  have hlen : 0 < journals.length := List.length_pos.mpr hne
  have hlenq : (journals.length : ℚ) ≠ 0 := by
    exact_mod_cast Nat.pos_iff_ne_zero.mp hlen
  unfold averageMood
  rw [if_pos hlen, totalMood_const3 journals h]
  have hq : ((3 * journals.length : Nat) : ℚ) / (journals.length : ℚ) = 3 := by
    push_cast
    field_simp
  rw [hq]
  norm_num [toFixed1]

/-! ## Confidentiality Codec (JournalPage.jsx over CryptoJS)

`encryptText`/`decryptText` wrap `CryptoJS.AES.encrypt/decrypt` in passphrase
mode: OpenSSL `EVP_BytesToKey` derivation from `(SECRET_KEY, salt)`, AES-CBC
over 16-byte blocks with PKCS#7 padding, output `"Salted__" ++ salt ++ body`
(then Base64, a bijection on byte sequences, left implicit).  The AES core,
the MD5-based derivation and the UTF-8 codec are library code outside this
repository; they enter the embedding as structures carrying exactly the laws
the library guarantees, while the mode of operation, padding, framing and
the repository's own wrapper logic are embedded concretely. -/

/-- An abstract 16-byte block cipher: a keyed transformation of blocks
together with its inverse (the laws every block cipher, AES included,
satisfies). -/
structure BlockCipher where
  encB : List Nat → List Nat → List Nat
  decB : List Nat → List Nat → List Nat
  decB_encB : ∀ k b, b.length = 16 → decB k (encB k b) = b
  encB_len : ∀ k b, b.length = 16 → (encB k b).length = 16

/-- An abstract text codec (CryptoJS `enc.Utf8`): encode a string to bytes;
decoding inverts encoding, and is `none` exactly when the library's
`Utf8.stringify` would throw on malformed data. -/
structure TextCodec where
  encode : String → List Nat
  decode : List Nat → Option String
  decode_encode : ∀ s, decode (encode s) = some s

/-- Everything `CryptoJS.AES.encrypt/decrypt(text, passphrase)` closes over:
the block cipher core, the `EVP_BytesToKey` derivation (passphrase and salt
to cipher key and 16-byte IV) and the text codec. -/
structure CryptoModel where
  bc : BlockCipher
  kdf : String → List Nat → List Nat × List Nat
  kdf_iv_len : ∀ p s, (kdf p s).2.length = 16
  codec : TextCodec

/-- Bytewise XOR of two byte sequences. -/
def listXor (a b : List Nat) : List Nat := List.zipWith (fun x y => x ^^^ y) a b

/-- PKCS#7 padding at block size 16, as CryptoJS `pad.Pkcs7` applies it:
append `n` copies of `n` where `n = 16 - len % 16` (a full extra block when
the length is already a multiple of 16). -/
def pkcs7pad (bs : List Nat) : List Nat :=
  bs ++ List.replicate (16 - bs.length % 16) (16 - bs.length % 16)

/-- The final byte of a byte sequence (0 for the empty sequence, as the JS
`undefined & 0xff`). -/
def lastByte : List Nat → Nat
  | [] => 0
  | b :: bs => if bs = [] then b else lastByte bs

/-- CryptoJS `pad.Pkcs7.unpad`: read the final byte and shorten `sigBytes` by
that amount, with no validation whatsoever.  A count exceeding the data
length drives `sigBytes` negative, and a negative length stringifies to the
empty byte sequence — both captured by `Nat` truncation in `take`. -/
def pkcs7unpadJs (bs : List Nat) : List Nat := bs.take (bs.length - lastByte bs)

def chunksGo : Nat → List Nat → List (List Nat)
  | 0, _ => []
  | fuel + 1, bs => if bs.length < 16 then [] else bs.take 16 :: chunksGo fuel (bs.drop 16)

/-- Split a byte sequence into the 16-byte blocks the cipher core processes
(a trailing fragment shorter than a block is never fed to the core). -/
def chunks16 (bs : List Nat) : List (List Nat) := chunksGo bs.length bs

/-- CBC encryption: each plaintext block is XORed with the previous
ciphertext block (the IV for the first) before the cipher core. -/
def cbcEnc (bc : BlockCipher) (k : List Nat) : List Nat → List (List Nat) → List (List Nat)
  | _, [] => []
  | iv, p :: ps => bc.encB k (listXor p iv) :: cbcEnc bc k (bc.encB k (listXor p iv)) ps

/-- CBC decryption: each ciphertext block goes through the inverse core and
is XORed with the previous ciphertext block (the IV for the first). -/
def cbcDec (bc : BlockCipher) (k : List Nat) : List Nat → List (List Nat) → List (List Nat)
  | _, [] => []
  | iv, c :: cs => listXor (bc.decB k c) iv :: cbcDec bc k c cs

/-- The ASCII bytes of the OpenSSL header CryptoJS writes before the 8-byte
salt. -/
def saltMagic : List Nat := [83, 97, 108, 116, 101, 100, 95, 95]

def opensslFormat (salt body : List Nat) : List Nat := saltMagic ++ (salt ++ body)

/-- CryptoJS's OpenSSL format parser: when the header matches, the next
8 bytes are the salt and the rest is the ciphertext body; otherwise no salt
is extracted (modelled as `[]`) and the whole input is the body. -/
def parseOpenssl (bs : List Nat) : List Nat × List Nat :=
  if bs.take 8 = saltMagic then ((bs.drop 8).take 8, bs.drop 16) else ([], bs)

/-- `encryptText` of JournalPage.jsx:
`CryptoJS.AES.encrypt(text, SECRET_KEY).toString()`.  The library draws a
random 8-byte salt — randomness enters the embedding as the explicit `salt`
argument — derives key and IV from the passphrase and salt, pads and
CBC-encrypts the encoded text, and emits the OpenSSL framing. -/
def encryptText (M : CryptoModel) (salt : List Nat) (password text : String) : List Nat :=
  opensslFormat salt
    ((cbcEnc M.bc (M.kdf password salt).1 (M.kdf password salt).2
      (chunks16 (pkcs7pad (M.codec.encode text)))).flatten)

/-- `CryptoJS.AES.decrypt(ciphertext, SECRET_KEY)` down to the decrypted
`WordArray`: parse the OpenSSL framing, re-derive key and IV, CBC-decrypt
the body's blocks and strip the (unvalidated) padding. -/
def decryptRaw (M : CryptoModel) (password : String) (c : List Nat) : List Nat :=
  pkcs7unpadJs
    ((cbcDec M.bc (M.kdf password (parseOpenssl c).1).1
      (M.kdf password (parseOpenssl c).1).2 (chunks16 (parseOpenssl c).2)).flatten)

/-- `decryptText` of JournalPage.jsx:
`bytes.toString(CryptoJS.enc.Utf8) || "⚠️ Failed to decrypt"` inside
`try { ... } catch { ... }`: a throw from UTF-8 stringification (malformed
bytes) is caught and replaced by the invalid-entry sentinel; an empty
decoded string is falsy, so `||` replaces it with the failed-to-decrypt
sentinel. -/
def decryptText (M : CryptoModel) (password : String) (c : List Nat) : String :=
  match M.codec.decode (decryptRaw M password c) with
  | none => "⚠️ Invalid entry (cannot decrypt)"
  | some s => if s = "" then "⚠️ Failed to decrypt" else s

/-! ## Codec round-trip lemmas -/

theorem listXor_cancel (a : List Nat) :
    ∀ b : List Nat, a.length = b.length → listXor (listXor a b) b = a := by
  induction a with
  | nil => intro b h; simp [listXor]
  | cons x xs ih =>
    intro b h
    cases b with
    | nil => simp at h
    | cons y ys =>
      simp only [listXor, List.zipWith_cons_cons]
      rw [Nat.xor_assoc, Nat.xor_self, Nat.xor_zero]
      have htail := ih ys (by simpa using h)
      simp only [listXor] at htail
      rw [htail]

theorem lastByte_append (l r : List Nat) (h : r ≠ []) :
    lastByte (l ++ r) = lastByte r := by
  induction l with
  | nil => rfl
  | cons x xs ih =>
    have hne : xs ++ r ≠ [] := by simp [h]
    have hstep : lastByte (x :: (xs ++ r)) = lastByte (xs ++ r) := by
      rw [lastByte, if_neg hne]
    rw [List.cons_append, hstep, ih]

theorem lastByte_replicate (m k : Nat) (h : 0 < m) :
    lastByte (List.replicate m k) = k := by
  induction m with
  | zero => omega
  | succ m ih =>
    by_cases hm : m = 0
    · subst hm; rfl
    · have hne : List.replicate m k ≠ ([] : List Nat) := by
        intro hc
        have := congrArg List.length hc
        simp at this
        omega
      simp only [List.replicate_succ, lastByte, if_neg hne]
      exact ih (by omega)

theorem pkcs7pad_mod (bs : List Nat) : (pkcs7pad bs).length % 16 = 0 := by
  simp only [pkcs7pad, List.length_append, List.length_replicate]
  omega

theorem pkcs7unpadJs_pad (bs : List Nat) : pkcs7unpadJs (pkcs7pad bs) = bs := by
  have hmod : bs.length % 16 < 16 := Nat.mod_lt _ (by omega)
  have hn1 : 0 < 16 - bs.length % 16 := by omega
  have hrep : List.replicate (16 - bs.length % 16) (16 - bs.length % 16) ≠ ([] : List Nat) := by
    intro hc
    have := congrArg List.length hc
    simp at this
    omega
  have hlast : lastByte (pkcs7pad bs) = 16 - bs.length % 16 := by
    unfold pkcs7pad
    rw [lastByte_append _ _ hrep, lastByte_replicate _ _ hn1]
  have hlen : (pkcs7pad bs).length = bs.length + (16 - bs.length % 16) := by
    simp [pkcs7pad]
  unfold pkcs7unpadJs
  rw [hlast, hlen]
  have harith : bs.length + (16 - bs.length % 16) - (16 - bs.length % 16) = bs.length := by
    omega
  rw [harith]
  unfold pkcs7pad
  exact List.take_left _ _

theorem chunksGo_join (fuel : Nat) :
    ∀ bs : List (List Nat), (∀ b ∈ bs, b.length = 16) → bs.flatten.length ≤ fuel →
      chunksGo fuel bs.flatten = bs := by
  induction fuel with
  | zero =>
    intro bs hb hlen
    cases bs with
    | nil => rfl
    | cons b rest =>
      exfalso
      have hb16 := hb b (List.mem_cons_self _ _)
      have hfl : (b :: rest).flatten.length = b.length + rest.flatten.length := by
        simp
      omega
  | succ fuel ih =>
    intro bs hb hlen
    cases bs with
    | nil => simp [chunksGo]
    | cons b rest =>
      have hb16 := hb b (List.mem_cons_self _ _)
      have hjoin : (b :: rest).flatten = b ++ rest.flatten := by simp [List.flatten]
      rw [hjoin] at hlen ⊢
      have hlen2 : ¬(b ++ rest.flatten).length < 16 := by
        simp only [List.length_append, hb16]
        omega
      simp only [chunksGo]
      rw [if_neg hlen2]
      have htake : (b ++ rest.flatten).take 16 = b := by
        rw [← hb16]; exact List.take_left _ _
      have hdrop : (b ++ rest.flatten).drop 16 = rest.flatten := by
        rw [← hb16]; exact List.drop_left _ _
      rw [htake, hdrop,
        ih rest (fun x hx => hb x (List.mem_cons_of_mem _ hx))
          (by simp only [List.length_append, hb16] at hlen; omega)]

theorem chunks16_join (bs : List (List Nat)) (hb : ∀ b ∈ bs, b.length = 16) :
    chunks16 bs.flatten = bs :=
  chunksGo_join _ bs hb (le_refl _)

theorem join_chunksGo (fuel : Nat) :
    ∀ bs : List Nat, bs.length ≤ fuel → bs.length % 16 = 0 →
      (chunksGo fuel bs).flatten = bs := by
  induction fuel with
  | zero =>
    intro bs h1 _
    have : bs = [] := List.eq_nil_of_length_eq_zero (by omega)
    subst this
    rfl
  | succ fuel ih =>
    intro bs h1 h2
    by_cases hlt : bs.length < 16
    · have : bs = [] := List.eq_nil_of_length_eq_zero (by omega)
      subst this
      simp [chunksGo]
    · simp only [chunksGo]
      rw [if_neg hlt]
      have hjoin : (bs.take 16 :: chunksGo fuel (bs.drop 16)).flatten
          = bs.take 16 ++ (chunksGo fuel (bs.drop 16)).flatten := by
        simp [List.flatten]
      rw [hjoin,
        ih (bs.drop 16) (by simp only [List.length_drop]; omega)
          (by simp only [List.length_drop]; omega)]
      exact List.take_append_drop 16 bs

theorem join_chunks16 (bs : List Nat) (h : bs.length % 16 = 0) :
    (chunks16 bs).flatten = bs :=
  join_chunksGo _ bs (le_refl _) h

theorem chunksGo_blocks (fuel : Nat) :
    ∀ bs b, b ∈ chunksGo fuel bs → b.length = 16 := by
  induction fuel with
  | zero => intro bs b hb; simp [chunksGo] at hb
  | succ fuel ih =>
    intro bs b hb
    by_cases hlt : bs.length < 16
    · simp [chunksGo, if_pos hlt] at hb
    · simp only [chunksGo, if_neg hlt] at hb
      rcases List.mem_cons.mp hb with rfl | hb2
      · simp only [List.length_take]
        omega
      · exact ih _ b hb2

theorem chunks16_blocks (bs b : List Nat) (hb : b ∈ chunks16 bs) : b.length = 16 :=
  chunksGo_blocks _ bs b hb

theorem cbcEnc_len (bc : BlockCipher) (k : List Nat) :
    ∀ (ps : List (List Nat)) (iv : List Nat), (∀ p ∈ ps, p.length = 16) →
      iv.length = 16 → ∀ c ∈ cbcEnc bc k iv ps, c.length = 16 := by
  intro ps
  induction ps with
  | nil => intro iv _ _ c hc; simp [cbcEnc] at hc
  | cons p ps ih =>
    intro iv hp hiv c hc
    have hp16 := hp p (List.mem_cons_self _ _)
    have hxlen : (listXor p iv).length = 16 := by
      simp [listXor, hp16, hiv]
    have henc := bc.encB_len k _ hxlen
    simp only [cbcEnc] at hc
    rcases List.mem_cons.mp hc with rfl | hc2
    · exact henc
    · exact ih (bc.encB k (listXor p iv))
        (fun x hx => hp x (List.mem_cons_of_mem _ hx)) henc c hc2

theorem cbcDec_cbcEnc (bc : BlockCipher) (k : List Nat) :
    ∀ (ps : List (List Nat)) (iv : List Nat), (∀ p ∈ ps, p.length = 16) →
      iv.length = 16 → cbcDec bc k iv (cbcEnc bc k iv ps) = ps := by
  intro ps
  induction ps with
  | nil => intro iv _ _; rfl
  | cons p ps ih =>
    intro iv hp hiv
    have hp16 := hp p (List.mem_cons_self _ _)
    have hxlen : (listXor p iv).length = 16 := by
      simp [listXor, hp16, hiv]
    simp only [cbcEnc, cbcDec]
    rw [bc.decB_encB k _ hxlen, listXor_cancel p iv (by rw [hp16, hiv]),
      ih (bc.encB k (listXor p iv)) (fun x hx => hp x (List.mem_cons_of_mem _ hx))
        (bc.encB_len k _ hxlen)]

theorem parseOpenssl_format (salt body : List Nat) (h : salt.length = 8) :
    parseOpenssl (opensslFormat salt body) = (salt, body) := by
  unfold parseOpenssl opensslFormat
  have h8 : saltMagic.length = 8 := rfl
  have hmagic : (saltMagic ++ (salt ++ body)).take 8 = saltMagic := by
    rw [← h8]; exact List.take_left _ _
  rw [if_pos hmagic]
  have h1 : (saltMagic ++ (salt ++ body)).drop 8 = salt ++ body := by
    rw [← h8]; exact List.drop_left _ _
  have h2 : (salt ++ body).take 8 = salt := by
    rw [← h]; exact List.take_left _ _
  have h3 : (saltMagic ++ (salt ++ body)).drop 16 = body := by
    rw [← List.append_assoc]
    have h16 : (saltMagic ++ salt).length = 16 := by simp [h, saltMagic]
    rw [← h16]
    exact List.drop_left _ _
  rw [h1, h2, h3]

theorem decryptRaw_format (M : CryptoModel) (password : String) (salt body : List Nat)
    (hsalt : salt.length = 8) :
    decryptRaw M password (opensslFormat salt body)
      = pkcs7unpadJs
          ((cbcDec M.bc (M.kdf password salt).1 (M.kdf password salt).2
            (chunks16 body)).flatten) := by
  unfold decryptRaw
  rw [parseOpenssl_format _ _ hsalt]

/-- The library-level round trip: decrypting an `encryptText` output under
the same passphrase recovers exactly the encoded plaintext bytes, for every
block cipher and derivation satisfying the laws. -/
theorem decryptRaw_encryptText (M : CryptoModel) (password : String) (salt : List Nat)
    (text : String) (hsalt : salt.length = 8) :
    decryptRaw M password (encryptText M salt password text) = M.codec.encode text := by
  unfold encryptText
  rw [decryptRaw_format M password salt _ hsalt]
  have hblocks16 : ∀ b ∈ chunks16 (pkcs7pad (M.codec.encode text)), b.length = 16 :=
    fun b hb => chunks16_blocks _ b hb
  have hiv := M.kdf_iv_len password salt
  rw [chunks16_join _ (cbcEnc_len M.bc _ _ _ hblocks16 hiv),
    cbcDec_cbcEnc M.bc _ _ _ hblocks16 hiv,
    join_chunks16 _ (pkcs7pad_mod _),
    pkcs7unpadJs_pad]

/-! ## A concrete instantiation of the library laws -/

/-- The identity block cipher: the smallest structure satisfying the block
cipher laws, used to run the parametric theorems on explicit inputs. -/
def idCipher : BlockCipher where
  encB _ b := b
  decB _ b := b
  decB_encB _ _ _ := rfl
  encB_len _ _ h := h

/-- A concrete text codec satisfying the codec laws: characters to their
code points. -/
def charCodec : TextCodec where
  encode s := s.data.map Char.toNat
  decode bs :=
    if h : ∀ b ∈ bs, Nat.isValidChar b then some (String.mk (bs.map Char.ofNat))
    else none
  decode_encode s := by
    have hv : ∀ b ∈ s.data.map Char.toNat, Nat.isValidChar b := by
      intro b hb
      rcases List.mem_map.mp hb with ⟨c, _, rfl⟩
      exact c.valid
    have hmap : ∀ l : List Char, (l.map Char.toNat).map Char.ofNat = l := by
      intro l
      induction l with
      | nil => rfl
      | cons c cs ih => simp [Char.ofNat_toNat, ih]
    simp only [dif_pos hv, hmap]

/-- A concrete crypto model — identity core, constant derivation, `charCodec`
— satisfying all the `CryptoModel` laws. -/
def cmId : CryptoModel where
  bc := idCipher
  kdf _ _ := ([], List.replicate 16 0)
  kdf_iv_len _ _ := rfl
  codec := charCodec


/-! ## The claims -/

/-- C1, counterexample: the round-trip law fails as universally stated — at
the plaintext `""` the decrypted text is the empty string, which is falsy in
the JS `||`, so `decryptText` returns the failed-to-decrypt sentinel instead
of the plaintext.  Evaluated in the concrete model `cmId`. -/
theorem c1_roundtrip_cex :
    decryptText cmId "pw" (encryptText cmId (List.replicate 8 0) "pw" "")
        = "⚠️ Failed to decrypt"
      ∧ decryptText cmId "pw" (encryptText cmId (List.replicate 8 0) "pw" "") ≠ "" := by
  decide

/-- C1 (amended): for every cipher core, derivation and codec satisfying the
library laws, every 8-byte salt and every key, decrypting an encryption
under the same key recovers the plaintext exactly whenever the plaintext is
nonempty; for the empty plaintext `decryptText` returns the
failed-to-decrypt sentinel instead. -/
theorem c1_roundtrip_amended (M : CryptoModel) (password : String) (salt : List Nat)
    (hsalt : salt.length = 8) :
    (∀ text : String, text ≠ "" →
        decryptText M password (encryptText M salt password text) = text)
      ∧ decryptText M password (encryptText M salt password "")
          = "⚠️ Failed to decrypt" := by
  constructor
  · intro text hne
    unfold decryptText
    rw [decryptRaw_encryptText M password salt text hsalt, M.codec.decode_encode]
    simp [hne]
  · unfold decryptText
    rw [decryptRaw_encryptText M password salt "" hsalt, M.codec.decode_encode]
    simp

theorem c1_roundtrip_witness :
    (List.replicate 8 0).length = 8 ∧ ("a" : String) ≠ ""
      ∧ decryptText cmId "pw" (encryptText cmId (List.replicate 8 0) "pw" "a") = "a" :=
  ⟨by decide, by decide,
    (c1_roundtrip_amended cmId "pw" (List.replicate 8 0) (by decide)).1 "a" (by decide)⟩

/-- C2 (confirmed): the computed streak `n` satisfies the spec's walk-back
characterisation — the `n` consecutive days ending at `today` are all in the
entry day list, the day just beyond the run is not (so the streak stops at
the first gap and is maximal), a day list without `today` gives streak 0,
and the spec's worked examples hold. -/
theorem c2_streak_spec :
    (∀ (days : List Int) (todayDay : Int) (todayFrac : ℚ),
        (∀ i : Nat, i < computeStreak days todayDay todayFrac → (todayDay - i) ∈ days)
          ∧ (todayDay - (computeStreak days todayDay todayFrac : Int)) ∉ days
          ∧ (todayDay ∉ days → computeStreak days todayDay todayFrac = 0))
      ∧ computeStreak [10, 9, 8, 6] 10 0 = 3
      ∧ computeStreak [9, 8, 7] 10 0 = 0
      ∧ computeStreak [] 10 0 = 0 := by
  refine ⟨fun days td tf => ?_, by decide, by decide, by decide⟩
  obtain ⟨h1, h2⟩ := computeStreak_char days td tf
  refine ⟨h1, h2, fun hnot => ?_⟩
  by_contra hne
  have h0 : 0 < computeStreak days td tf := Nat.pos_of_ne_zero hne
  have hmem := h1 0 h0
  simp at hmem
  exact hnot hmem

theorem c2_streak_witness :
    (0 : Nat) < computeStreak [10, 9, 8, 6] 10 0
      ∧ ((10 : Int) - ((0 : Nat) : Int)) ∈ ([10, 9, 8, 6] : List Int) :=
  ⟨by decide, (c2_streak_spec.1 [10, 9, 8, 6] 10 0).1 0 (by decide)⟩

/-- C4 (confirmed): `averageMood` of the empty set is 0 (not an error, not
NaN); for a nonempty set it is the mean of the 1..5-mapped moods rounded to
one decimal place; and the spec's examples evaluate as stated. -/
theorem c4_averageMood_spec :
    averageMood [] = 0
      ∧ (∀ journals : List JEntry, journals ≠ [] →
          averageMood journals = toFixed1 (meanMood journals))
      ∧ averageMood [⟨"Happy", none⟩] = 4
      ∧ averageMood [⟨"Very Sad", none⟩, ⟨"Very Happy", none⟩] = 3 := by
  refine ⟨by decide, fun js h => averageMood_eq_mean js h, ?_, ?_⟩
  · norm_num [averageMood, totalMood, List.foldl, toFixed1,
      show moodScore "Happy" = 4 from rfl]
  · norm_num [averageMood, totalMood, List.foldl, toFixed1,
      show moodScore "Very Sad" = 1 from rfl, show moodScore "Very Happy" = 5 from rfl]

theorem c4_averageMood_witness :
    ([⟨"Happy", none⟩] : List JEntry) ≠ []
      ∧ averageMood [⟨"Happy", none⟩] = toFixed1 (meanMood [⟨"Happy", none⟩]) :=
  ⟨by decide, c4_averageMood_spec.2.1 _ (by decide)⟩

/-- C5 (confirmed): duplicating a day already present leaves the streak
unchanged; a day list containing `today` gives streak at least 1; and two
entries on day 10 with `today = 10` give streak exactly 1, not 2. -/
theorem c5_dedup_spec :
    (∀ (days : List Int) (todayDay d : Int) (todayFrac : ℚ), d ∈ days →
        computeStreak (d :: days) todayDay todayFrac
          = computeStreak days todayDay todayFrac)
      ∧ (∀ (days : List Int) (todayDay : Int) (todayFrac : ℚ), todayDay ∈ days →
          1 ≤ computeStreak days todayDay todayFrac)
      ∧ computeStreak [10, 10] 10 0 = 1 := by
  refine ⟨?_, ?_, by decide⟩
  · intro days td d tf hd
    apply computeStreak_ext
    intro x
    constructor
    · intro hx
      rcases List.mem_cons.mp hx with rfl | hx2
      · exact hd
      · exact hx2
    · exact fun hx => List.mem_cons_of_mem _ hx
  · intro days td tf htd
    obtain ⟨h1, h2⟩ := computeStreak_char days td tf
    by_contra hlt
    have h0 : computeStreak days td tf = 0 := by omega
    rw [h0] at h2
    simp at h2
    exact h2 htd

theorem c5_dedup_witness :
    (10 : Int) ∈ ([10] : List Int)
      ∧ computeStreak [10, 10] 10 0 = computeStreak [10] 10 0 :=
  ⟨by decide, c5_dedup_spec.1 [10] 10 10 0 (by decide)⟩

/-- C6 (confirmed): `decryptText` is total — on every input it returns
either the successfully decoded nonempty plaintext or one of the two
visible sentinel strings the caller substitutes for a failure; no fault
propagates past the `try`/`catch`-and-`||` wrapper. -/
theorem c6_decrypt_total (M : CryptoModel) (password : String) (c : List Nat) :
    (∃ s : String, M.codec.decode (decryptRaw M password c) = some s ∧ s ≠ ""
        ∧ decryptText M password c = s)
      ∨ decryptText M password c = "⚠️ Failed to decrypt"
      ∨ decryptText M password c = "⚠️ Invalid entry (cannot decrypt)" := by
  unfold decryptText
  cases hdec : M.codec.decode (decryptRaw M password c) with
  | none => right; right; rfl
  | some s =>
    by_cases hs : s = ""
    · right; left; simp [hs]
    · left; exact ⟨s, rfl, hs, by simp [hs]⟩

/-- C7, counterexample to observability: a set with one unparseable-date
entry and a set with one future-dated (but well-formed) entry produce the
very same stats response, although their malformed-entry counts differ —
the exclusion is not observable from the handler's output. -/
theorem c7_observability_cex :
    statsResponse [⟨"Happy", none⟩] [none] 10 0 5
        = statsResponse [⟨"Happy", some 20⟩] [some 20] 10 0 5
      ∧ malformedCount [⟨"Happy", none⟩] = 1
      ∧ malformedCount [⟨"Happy", some 20⟩] = 0
      ∧ ([⟨"Happy", none⟩] : List JEntry).map JEntry.dateOnly = [none]
      ∧ ([⟨"Happy", some 20⟩] : List JEntry).map JEntry.dateOnly = [some 20] :=
  ⟨rfl, by decide, by decide, by decide, by decide⟩

/-- C7 (amended): the stats computation is total with no error states — the
empty entry set yields exactly `totalEntries = 0`, `averageMood = 0`,
`streak = 0`; for a nonempty set the streak field is the loop over the
supplied date order; and the loop ignores every Invalid Date, i.e. it equals
the pure walk over the valid days only, whatever positions the malformed
entries occupy.  The exclusion, however, is not surfaced in the response
(see the counterexample). -/
theorem c7_totality_amended :
    (∀ (todayDay : Int) (todayFrac : ℚ) (communityPosts : Nat),
        statsResponse [] [] todayDay todayFrac communityPosts
          = ⟨0, 0, 0, communityPosts⟩)
      ∧ (∀ (journals : List JEntry) (sortedDates : List (Option Int))
          (todayDay : Int) (todayFrac : ℚ) (communityPosts : Nat),
          (statsResponse journals sortedDates todayDay todayFrac communityPosts).streak
              = streakLoopJS sortedDates todayDay todayFrac 0
            ∨ journals = [])
      ∧ (∀ (sortedDates : List (Option Int)) (todayDay : Int) (todayFrac : ℚ),
          streakLoopJS sortedDates todayDay todayFrac 0
            = streakAux (sortedDates.filterMap id) todayDay) := by
  refine ⟨fun td tf cp => rfl, ?_, ?_⟩
  · intro js sd td tf cp
    rcases List.eq_nil_or_concat js with rfl | ⟨l, e, rfl⟩
    · right; rfl
    · left
      have hpos : 0 < (l ++ [e]).length := by simp
      simp [statsResponse, hpos]
  · intro sd td tf
    rw [streakLoopJS_eq_aux, Nat.add_zero]

/-- C8 (confirmed): the streak is a pure function of the entry day-set and
the reference day — invocations agree whenever the day lists have the same
members (order and multiplicity are irrelevant) and the reference day is the
same, for any time-of-day values the wall-clock read may have produced. -/
theorem c8_purity (S1 S2 : List Int) (todayDay : Int) (tf1 tf2 : ℚ)
    (h : ∀ d : Int, d ∈ S1 ↔ d ∈ S2) :
    computeStreak S1 todayDay tf1 = computeStreak S2 todayDay tf2 :=
  computeStreak_ext S1 S2 todayDay tf1 tf2 h

theorem c8_purity_witness :
    (∀ d : Int, d ∈ ([10, 9, 9] : List Int) ↔ d ∈ ([9, 10] : List Int))
      ∧ computeStreak [10, 9, 9] 10 0 = computeStreak [9, 10] 10 (1 / 2) := by
  have h : ∀ d : Int, d ∈ ([10, 9, 9] : List Int) ↔ d ∈ ([9, 10] : List Int) := by
    intro d
    simp only [List.mem_cons, List.not_mem_nil, or_false]
    tauto
  exact ⟨h, c8_purity [10, 9, 9] [9, 10] 10 0 (1 / 2) h⟩

/-- C9, counterexample: `dateOnly` is derived with the viewer-local
`toDateString`, not in a fixed reference frame — for the same `createdAt`
(23:30 UTC of day 0) a client at UTC and a client at UTC+2 obtain different
calendar days. -/
theorem c9_dateOnly_cex : dateOnlyOf 1410 0 ≠ dateOnlyOf 1410 120 := by decide

/-- C9 (amended): `dateOnly` is the calendar day of `createdAt` in the
viewing client's local timezone; clients at any two distinct UTC offsets
disagree on it for some `createdAt`. -/
theorem c9_dateOnly_amended (o1 o2 : Int) (h : o1 ≠ o2) :
    ∃ t : Int, dateOnlyOf t o1 ≠ dateOnlyOf t o2 := by
  rcases lt_or_gt_of_ne h with hlt | hgt
  · exact ⟨1439 - o1, by unfold dateOnlyOf; omega⟩
  · exact ⟨1439 - o2, by unfold dateOnlyOf; omega⟩

theorem c9_dateOnly_witness :
    (0 : Int) ≠ 120 ∧ ∃ t : Int, dateOnlyOf t 0 ≠ dateOnlyOf t 120 :=
  ⟨by decide, c9_dateOnly_amended 0 120 (by decide)⟩

/-- C10 (confirmed): every mood label outside the five named ones maps to
the default 3, and consequently any nonempty entry set whose moods are drawn
from the six UI emoji has average mood exactly 3. -/
theorem c10_mood_default :
    (∀ m : String,
        m ∉ (["Very Sad", "Sad", "Neutral", "Happy", "Very Happy"] : List String) →
        moodScore m = 3)
      ∧ (∀ journals : List JEntry, journals ≠ [] →
          (∀ j ∈ journals,
            j.mood ∈ (["😊", "😔", "😡", "😱", "😴", "❤️"] : List String)) →
          averageMood journals = 3) := by
  constructor
  · intro m hm
    simp only [List.mem_cons, List.not_mem_nil, or_false, not_or] at hm
    obtain ⟨h1, h2, h3, h4, h5⟩ := hm
    simp [moodScore, h1, h2, h3, h4, h5]
  · intro js hne hmem
    apply averageMood_const3 js hne
    intro j hj
    have hj2 := hmem j hj
    simp only [List.mem_cons, List.not_mem_nil, or_false] at hj2
    rcases hj2 with h | h | h | h | h | h <;> rw [h] <;> rfl

theorem c10_mood_witness :
    ([⟨"😊", none⟩] : List JEntry) ≠ []
      ∧ (∀ j ∈ ([⟨"😊", none⟩] : List JEntry),
          j.mood ∈ (["😊", "😔", "😡", "😱", "😴", "❤️"] : List String))
      ∧ averageMood [⟨"😊", none⟩] = 3 :=
  ⟨by decide, by decide, c10_mood_default.2 _ (by decide) (by decide)⟩

theorem c6_decrypt_witness :
    (∃ s : String, cmId.codec.decode (decryptRaw cmId "pw" [1, 2, 3]) = some s ∧ s ≠ ""
        ∧ decryptText cmId "pw" [1, 2, 3] = s)
      ∨ decryptText cmId "pw" [1, 2, 3] = "⚠️ Failed to decrypt"
      ∨ decryptText cmId "pw" [1, 2, 3] = "⚠️ Invalid entry (cannot decrypt)" :=
  c6_decrypt_total cmId "pw" [1, 2, 3]

theorem c7_totality_witness :
    statsResponse [] [] 10 0 5 = ⟨0, 0, 0, 5⟩ :=
  c7_totality_amended.1 10 0 5
